import Mathlib

/-!
Verification of the byte-level BPE tokenizer (files `bpe/base.py` and
`bpe/regex.py`) against its natural-language specification.

The Python code is shallowly embedded:
* Python `dict`s (insertion-ordered) become association lists with a
  replace-or-append assignment (`alSet`) and first-match lookup (`alGet`).
* Python `str` becomes `List Char`; `str.encode("utf-8")` becomes an explicit
  byte-level encoder; `bytes.decode("utf-8", errors="replace")` becomes an
  explicit WHATWG-style decoder that substitutes U+FFFD for maximal invalid
  subparts.
* Fallible operations (assertions, NameError/AttributeError/ValueError/KeyError
  raised by the code) return `Except String`.
* The external `regex` engine (`re.findall(self.compiled_pattern, text)`) is
  modelled as a function parameter `split : List Char → List (List Char)`;
  where a claim depends on the splitter it enters as that parameter, with the
  lossless-split contract of spec §4.3 taken as a hypothesis.
-/

set_option maxRecDepth 100000

namespace BPE

/-- Insertion-ordered dictionary lookup (first match), modelling Python
`d.get(k)` / `d[k]` on a dict represented as an association list. -/
def alGet {α β : Type} [DecidableEq α] : List (α × β) → α → Option β
  | [], _ => none
  | (k, v) :: rest, a => if a = k then some v else alGet rest a

/-- Insertion-ordered dictionary assignment `d[k] = v`: replaces the value at
an existing key in place, otherwise appends, exactly like a Python dict. -/
def alSet {α β : Type} [DecidableEq α] : List (α × β) → α → β → List (α × β)
  | [], k, v => [(k, v)]
  | (k0, v0) :: rest, k, v =>
      if k = k0 then (k0, v) :: rest else (k0, v0) :: alSet rest k v

theorem alGet_alSet {α β : Type} [DecidableEq α] (l : List (α × β)) (k k' : α) (v : β) :
    alGet (alSet l k v) k' = if k' = k then some v else alGet l k' := by
  induction l with
  | nil =>
      by_cases h : k' = k <;> simp [alSet, alGet, h]
  | cons kv rest ih =>
      obtain ⟨k0, v0⟩ := kv
      by_cases h0 : k = k0
      · subst h0
        by_cases h : k' = k <;> simp [alSet, alGet, h]
      · by_cases h : k' = k0
        · subst h
          have hne : ¬ k' = k := fun hh => h0 (hh ▸ rfl)
          simp [alSet, alGet, h0, hne]
        · simp [alSet, alGet, h0, h, ih]

theorem alGet_isSome_mem {α β : Type} [DecidableEq α] {l : List (α × β)} {k : α}
    (h : (alGet l k).isSome = true) : ∃ v, (k, v) ∈ l := by
  induction l with
  | nil => simp [alGet] at h
  | cons kv rest ih =>
      obtain ⟨k0, v0⟩ := kv
      by_cases hk : k = k0
      · subst hk
        exact ⟨v0, List.mem_cons_self _ _⟩
      · simp [alGet, hk] at h
        obtain ⟨v, hv⟩ := ih h
        exact ⟨v, List.mem_cons_of_mem _ hv⟩

theorem alGet_mem_isSome {α β : Type} [DecidableEq α] {l : List (α × β)} {k : α} {v : β}
    (h : (k, v) ∈ l) : (alGet l k).isSome = true := by
  induction l with
  | nil => simp at h
  | cons kv rest ih =>
      obtain ⟨k0, v0⟩ := kv
      by_cases hk : k = k0
      · simp [alGet, hk]
      · have h1 : (k, v) ∈ rest := by
          rcases List.mem_cons.mp h with h2 | h2
          · cases h2
            exact absurd rfl hk
          · exact h2
        simpa [alGet, hk] using ih h1

/-! ## `base.py`: helper functions `get_stats` and `merge` -/

/-- `base.py` `get_stats(ids, counts)`: counts of consecutive pairs,
accumulated into `counts` (`counts[pair] = counts.get(pair, 0) + 1` over
`zip(ids, ids[1:])`). -/
def get_stats (ids : List Nat) (counts : List ((Nat × Nat) × Nat)) :
    List ((Nat × Nat) × Nat) :=
  (ids.zip ids.tail).foldl
    (fun cs p => alSet cs p ((alGet cs p).getD 0 + 1)) counts

/-- `base.py` `merge(ids, pair, idx)`: the while-loop translated to recursion
on the remaining suffix.  The Python guard is
`ids[i] == pair[0] and i < len(ids) - 1 and ids[i+1] == pair[1]`;
the middle conjunct is the "at least two elements remain" test. -/
def merge : List Nat → Nat × Nat → Nat → List Nat
  | [], _, _ => []
  | [x], _, _ => [x]
  | x :: y :: rest, pair, idx =>
      if x = pair.1 ∧ y = pair.2 then idx :: merge rest pair idx
      else x :: merge (y :: rest) pair idx

/-- Modelled from the spec's words (§4.2 Merge Engine), for comparison with the
source's `merge`: "a new sequence where every non-overlapping, left-to-right
occurrence of the exact adjacent pair (a, b) is replaced by the single id idx;
scanning resumes immediately after a replacement". -/
def mergeSpecRef (pair : Nat × Nat) (idx : Nat) : List Nat → List Nat
  | a :: b :: rest =>
      if a = pair.1 ∧ b = pair.2 then idx :: mergeSpecRef pair idx rest
      else a :: mergeSpecRef pair idx (b :: rest)
  | l => l

theorem merge_eq_mergeSpecRef (ids : List Nat) (pair : Nat × Nat) (idx : Nat) :
    merge ids pair idx = mergeSpecRef pair idx ids := by
  induction ids, pair, idx using merge.induct <;>
    simp [merge, mergeSpecRef, *]

/-- C5: the Merge Engine replaces every non-overlapping left-to-right adjacent
occurrence of the pair, resuming immediately after each replacement: the
source's `merge` coincides with the spec-side reference recursion, the spec's
example `[x, a, b, a, b]` with pair `(a, b)` yields `[x, idx, idx]` (whenever
`x, a, b` are not all one and the same value, as the example's distinct symbols
indicate), and the overlapping example `[a, a, b]` with pair `(a, a)` consumes
the first two elements, yielding `[idx, b]`.  Non-mutation of the input is
inherent to the functional embedding (the Python loop only appends to a fresh
`newids`). -/
theorem c5_merge_engine :
    (∀ (ids : List Nat) (pair : Nat × Nat) (idx : Nat),
        merge ids pair idx = mergeSpecRef pair idx ids) ∧
    (∀ x a b idx : Nat, ¬ (x = a ∧ b = a) →
        merge [x, a, b, a, b] (a, b) idx = [x, idx, idx]) ∧
    (∀ a b idx : Nat, merge [a, a, b] (a, a) idx = [idx, b]) := by
  refine ⟨merge_eq_mergeSpecRef, ?_, ?_⟩
  · intro x a b idx h
    by_cases hx : x = a
    · have hab : ¬ a = b := fun hh => h ⟨hx, hh.symm⟩
      simp [merge, hx, hab]
    · have hxp : ¬ (x = a ∧ a = b) := fun hc => hx hc.1
      simp [merge, hxp]
  · intro a b idx
    simp [merge]

/-- Witness for C5 at concrete inputs. -/
theorem c5_merge_engine_witness :
    (¬ ((0 : Nat) = 1 ∧ (2 : Nat) = 1)) ∧
    merge [0, 1, 2, 1, 2] (1, 2) 9 = [0, 9, 9] ∧
    merge [5, 5, 7] (5, 5) 9 = [9, 7] := by
  refine ⟨by decide, c5_merge_engine.2.1 0 1 2 9 (by decide), c5_merge_engine.2.2 5 7 9⟩

/-! ## UTF-8 codec

Models Python's `str.encode("utf-8")` and
`bytes.decode("utf-8", errors="replace")` (the latter per CPython's
W3C/WHATWG maximal-subpart substitution: one U+FFFD replaces the longest
valid prefix of an invalid sequence). -/

/-- UTF-8 encoding of one unicode scalar value, as byte values. -/
def utf8EncodeCharNat (c : Nat) : List Nat :=
  if c < 0x80 then [c]
  else if c < 0x800 then [0xC0 + c / 64, 0x80 + c % 64]
  else if c < 0x10000 then [0xE0 + c / 4096, 0x80 + c / 64 % 64, 0x80 + c % 64]
  else [0xF0 + c / 262144, 0x80 + c / 4096 % 64, 0x80 + c / 64 % 64, 0x80 + c % 64]

/-- Python `text.encode("utf-8")` on a string given as a list of chars. -/
def utf8Encode (s : List Char) : List Nat :=
  s.flatMap (fun c => utf8EncodeCharNat c.toNat)

theorem utf8Encode_nil : utf8Encode [] = [] := rfl

theorem utf8Encode_cons (c : Char) (cs : List Char) :
    utf8Encode (c :: cs) = utf8EncodeCharNat c.toNat ++ utf8Encode cs := rfl

theorem utf8Encode_append (s t : List Char) :
    utf8Encode (s ++ t) = utf8Encode s ++ utf8Encode t := by
  simp [utf8Encode]

/-- Python `bytes.decode("utf-8", errors="replace")`, producing the list of
decoded codepoints; ill-formed subsequences yield U+FFFD (one replacement per
maximal valid subpart, per CPython). -/
def utf8DecodeReplace : List Nat → List Nat
  | [] => []
  | b :: rest =>
    if b < 0x80 then b :: utf8DecodeReplace rest
    else if b < 0xC2 then 0xFFFD :: utf8DecodeReplace rest
    else if b < 0xE0 then
      match rest with
      | [] => [0xFFFD]
      | b2 :: r2 =>
        if 0x80 ≤ b2 ∧ b2 < 0xC0 then
          ((b - 0xC0) * 64 + (b2 - 0x80)) :: utf8DecodeReplace r2
        else 0xFFFD :: utf8DecodeReplace (b2 :: r2)
    else if b < 0xF0 then
      match rest with
      | [] => [0xFFFD]
      | b2 :: r2 =>
        if (if b = 0xE0 then 0xA0 else 0x80) ≤ b2 ∧
            b2 ≤ (if b = 0xED then 0x9F else 0xBF) then
          match r2 with
          | [] => [0xFFFD]
          | b3 :: r3 =>
            if 0x80 ≤ b3 ∧ b3 < 0xC0 then
              ((b - 0xE0) * 4096 + (b2 - 0x80) * 64 + (b3 - 0x80)) ::
                utf8DecodeReplace r3
            else 0xFFFD :: utf8DecodeReplace (b3 :: r3)
        else 0xFFFD :: utf8DecodeReplace (b2 :: r2)
    else if b < 0xF5 then
      match rest with
      | [] => [0xFFFD]
      | b2 :: r2 =>
        if (if b = 0xF0 then 0x90 else 0x80) ≤ b2 ∧
            b2 ≤ (if b = 0xF4 then 0x8F else 0xBF) then
          match r2 with
          | [] => [0xFFFD]
          | b3 :: r3 =>
            if 0x80 ≤ b3 ∧ b3 < 0xC0 then
              match r3 with
              | [] => [0xFFFD]
              | b4 :: r4 =>
                if 0x80 ≤ b4 ∧ b4 < 0xC0 then
                  ((b - 0xF0) * 262144 + (b2 - 0x80) * 4096 +
                      (b3 - 0x80) * 64 + (b4 - 0x80)) :: utf8DecodeReplace r4
                else 0xFFFD :: utf8DecodeReplace (b4 :: r4)
            else 0xFFFD :: utf8DecodeReplace (b3 :: r3)
        else 0xFFFD :: utf8DecodeReplace (b2 :: r2)
    else 0xFFFD :: utf8DecodeReplace rest

/-- Decoding is a left inverse of encoding for every valid scalar value,
bytewise, in front of any remaining byte stream. -/
theorem utf8DecodeReplace_encodeChar (c : Nat) (hv : Nat.isValidChar c)
    (rest : List Nat) :
    utf8DecodeReplace (utf8EncodeCharNat c ++ rest) = c :: utf8DecodeReplace rest := by
  by_cases h1 : c < 0x80
  · have e1 : utf8EncodeCharNat c = [c] := by simp [utf8EncodeCharNat, h1]
    rw [e1]
    show utf8DecodeReplace (c :: rest) = _
    rw [utf8DecodeReplace.eq_def]
    simp [h1]
  · by_cases h2 : c < 0x800
    · have e1 : utf8EncodeCharNat c = [0xC0 + c / 64, 0x80 + c % 64] := by
        simp [utf8EncodeCharNat, h1, h2]
      rw [e1]
      show utf8DecodeReplace ((0xC0 + c / 64) :: (0x80 + c % 64) :: rest) = _
      have hb1 : ¬ (0xC0 + c / 64) < 0x80 := by omega
      have hb2 : ¬ (0xC0 + c / 64) < 0xC2 := by omega
      have hb3 : (0xC0 + c / 64) < 0xE0 := by omega
      have hc : 0x80 ≤ 0x80 + c % 64 ∧ 0x80 + c % 64 < 0xC0 := by omega
      rw [utf8DecodeReplace.eq_def]
      simp only [if_neg hb1, if_neg hb2, if_pos hb3, if_pos hc, List.cons.injEq]
      exact ⟨by omega, trivial⟩
    · by_cases h3 : c < 0x10000
      · have e1 : utf8EncodeCharNat c =
            [0xE0 + c / 4096, 0x80 + c / 64 % 64, 0x80 + c % 64] := by
          simp [utf8EncodeCharNat, h1, h2, h3]
        rw [e1]
        show utf8DecodeReplace
            ((0xE0 + c / 4096) :: (0x80 + c / 64 % 64) :: (0x80 + c % 64) :: rest) = _
        have hb1 : ¬ (0xE0 + c / 4096) < 0x80 := by omega
        have hb2 : ¬ (0xE0 + c / 4096) < 0xC2 := by omega
        have hb3 : ¬ (0xE0 + c / 4096) < 0xE0 := by omega
        have hb4 : (0xE0 + c / 4096) < 0xF0 := by omega
        have hc2 : (if (0xE0 + c / 4096) = 0xE0 then 0xA0 else 0x80) ≤ 0x80 + c / 64 % 64 ∧
            0x80 + c / 64 % 64 ≤ (if (0xE0 + c / 4096) = 0xED then 0x9F else 0xBF) := by
          constructor
          · split <;> omega
          · split <;> omega
        have hc3 : 0x80 ≤ 0x80 + c % 64 ∧ 0x80 + c % 64 < 0xC0 := by omega
        rw [utf8DecodeReplace.eq_def]
        simp only [if_neg hb1, if_neg hb2, if_neg hb3,
          if_pos hb4, if_pos hc2, if_pos hc3, List.cons.injEq]
        exact ⟨by omega, trivial⟩
      · have h4 : c < 0x110000 := by
          rcases hv with h | h
          · omega
          · exact h.2
        have e1 : utf8EncodeCharNat c =
            [0xF0 + c / 262144, 0x80 + c / 4096 % 64, 0x80 + c / 64 % 64,
              0x80 + c % 64] := by
          simp [utf8EncodeCharNat, h1, h2, h3]
        rw [e1]
        show utf8DecodeReplace
            ((0xF0 + c / 262144) :: (0x80 + c / 4096 % 64) ::
              (0x80 + c / 64 % 64) :: (0x80 + c % 64) :: rest) = _
        have hb1 : ¬ (0xF0 + c / 262144) < 0x80 := by omega
        have hb2 : ¬ (0xF0 + c / 262144) < 0xC2 := by omega
        have hb3 : ¬ (0xF0 + c / 262144) < 0xE0 := by omega
        have hb4 : ¬ (0xF0 + c / 262144) < 0xF0 := by omega
        have hb5 : (0xF0 + c / 262144) < 0xF5 := by omega
        have hc2 : (if (0xF0 + c / 262144) = 0xF0 then 0x90 else 0x80) ≤
              0x80 + c / 4096 % 64 ∧
            0x80 + c / 4096 % 64 ≤ (if (0xF0 + c / 262144) = 0xF4 then 0x8F else 0xBF) := by
          constructor
          · split <;> omega
          · split <;> omega
        have hc3 : 0x80 ≤ 0x80 + c / 64 % 64 ∧ 0x80 + c / 64 % 64 < 0xC0 := by omega
        have hc4 : 0x80 ≤ 0x80 + c % 64 ∧ 0x80 + c % 64 < 0xC0 := by omega
        rw [utf8DecodeReplace.eq_def]
        simp only [if_neg hb1, if_neg hb2, if_neg hb3,
          if_neg hb4, if_pos hb5, if_pos hc2, if_pos hc3, if_pos hc4, List.cons.injEq]
        exact ⟨by omega, trivial⟩

theorem utf8DecodeReplace_utf8Encode (s : List Char) :
    utf8DecodeReplace (utf8Encode s) = s.map Char.toNat := by
  induction s with
  | nil => rfl
  | cons c cs ih =>
      rw [utf8Encode_cons, utf8DecodeReplace_encodeChar c.toNat c.valid, ih]
      rfl

/-- The final step of Python `bytes.decode("utf-8", errors="replace")`:
codepoints back to a string (list of chars). -/
def utf8DecodeToChars (bs : List Nat) : List Char :=
  (utf8DecodeReplace bs).map Char.ofNat

theorem utf8DecodeToChars_utf8Encode (s : List Char) :
    utf8DecodeToChars (utf8Encode s) = s := by
  rw [utf8DecodeToChars, utf8DecodeReplace_utf8Encode]
  induction s with
  | nil => rfl
  | cons c cs ih => simp [Char.ofNat_toNat, ih]

/-! ## Tokenizer state (`base.py` `Tokenizer`, `regex.py` `RegexTokenizer`) -/

/-- `{idx: bytes([idx]) for idx in range(256)}`: the 256 base byte entries. -/
def byteVocab : List (Nat × List Nat) :=
  (List.range 256).map (fun i => (i, [i]))

theorem alGet_append {α β : Type} [DecidableEq α] (l1 l2 : List (α × β)) (k : α) :
    alGet (l1 ++ l2) k = if (alGet l1 k).isSome then alGet l1 k else alGet l2 k := by
  induction l1 with
  | nil => simp [alGet]
  | cons kv rest ih =>
      obtain ⟨k0, v0⟩ := kv
      by_cases hk : k = k0 <;> simp [alGet, hk, ih]

theorem alGet_eq_none {α β : Type} [DecidableEq α] {l : List (α × β)} {k : α}
    (h : ∀ kv ∈ l, kv.1 ≠ k) : alGet l k = none := by
  induction l with
  | nil => rfl
  | cons kv rest ih =>
      obtain ⟨k0, v0⟩ := kv
      have hk : k ≠ k0 := fun hh => (h (k0, v0) (List.mem_cons_self _ _)) hh.symm
      simp [alGet, hk]
      exact ih (fun kv hkv => h kv (List.mem_cons_of_mem _ hkv))

theorem alGet_range_map {β : Type} (f : Nat → β) :
    ∀ n b : Nat, b < n →
      alGet ((List.range n).map (fun i => (i, f i))) b = some (f b) := by
  intro n
  induction n with
  | zero => intro b hb; omega
  | succ m ih =>
      intro b hb
      rw [List.range_succ, List.map_append, alGet_append]
      by_cases hbm : b < m
      · simp [ih b hbm]
      · have hbe : b = m := by omega
        subst hbe
        have hnone : alGet ((List.range b).map (fun i => (i, f i))) b = none := by
          apply alGet_eq_none
          intro kv hkv
          obtain ⟨i, hi, hkv2⟩ := List.mem_map.mp hkv
          have : i < b := List.mem_range.mp hi
          rw [← hkv2]
          simp
          omega
        simp [hnone, alGet]

theorem alGet_byteVocab {b : Nat} (h : b < 256) : alGet byteVocab b = some [b] :=
  alGet_range_map (fun i => [i]) 256 b h

theorem byteVocab_keys_lt {k : Nat} (h : (alGet byteVocab k).isSome = true) :
    k < 256 := by
  obtain ⟨v, hv⟩ := alGet_isSome_mem h
  obtain ⟨i, hi, hkv⟩ := List.mem_map.mp hv
  have h1 : i < 256 := List.mem_range.mp hi
  have h2 : i = k := congrArg Prod.fst hkv
  omega

theorem alGet_byteVocab_none {k : Nat} (h : 256 ≤ k) : alGet byteVocab k = none := by
  cases ho : alGet byteVocab k with
  | none => rfl
  | some v =>
      have : k < 256 := byteVocab_keys_lt (by rw [ho]; rfl)
      omega

theorem byteVocab_length : byteVocab.length = 256 := by
  simp [byteVocab]

/-- State of a `RegexTokenizer`.  `compiled_pattern` (the external regex
engine) is modelled separately, as a `split` function parameter of the
operations that use it. -/
structure RegexTok where
  pattern : String
  merges : List ((Nat × Nat) × Nat)
  special_tokens : List (List Char × Nat)
  inverse_special_tokens : List (Nat × List Char)
  vocab : List (Nat × List Nat)

/-- `RegexTokenizer.__init__` (with a caller-supplied pattern string): empty
merges, empty special-token maps, and `_build_vocab()` of the empty merge
table, which is the 256-byte identity vocabulary. -/
def freshTok (pattern : String) : RegexTok :=
  { pattern := pattern, merges := [], special_tokens := [],
    inverse_special_tokens := [], vocab := byteVocab }

/-- `RegexTokenizer.register_special_tokens`: stores the given dict and
derives the inverse map (`{v: k for k, v in special_tokens.items()}`).
Nothing else is touched; in particular `self.vocab` is not rebuilt. -/
def register_special_tokens (t : RegexTok)
    (special_tokens : List (List Char × Nat)) : RegexTok :=
  { t with
    special_tokens := special_tokens,
    inverse_special_tokens :=
      special_tokens.foldl (fun d kv => alSet d kv.2 kv.1) [] }

/-- The per-id loop of `RegexTokenizer.decode`.  The vocabulary branch
collects `self.vocab[idx]`; the special-token branch executes
`party_bytes.append(...)` where only `part_bytes` is defined, hence it raises
`NameError`; an id known to neither raises `ValueError`. -/
def decodeParts (vocab : List (Nat × List Nat)) (inv : List (Nat × List Char)) :
    List Nat → Except String (List (List Nat))
  | [] => Except.ok []
  | idx :: rest =>
    match alGet vocab idx with
    | some bs =>
        match decodeParts vocab inv rest with
        | Except.ok parts => Except.ok (bs :: parts)
        | Except.error e => Except.error e
    | none =>
        match alGet inv idx with
        | some _ => Except.error ("NameError: name party_bytes is not defined")
        | none => Except.error ("invalid token id: " ++ toString idx)

/-- `RegexTokenizer.decode`: resolve every id, join the byte-strings, decode
as UTF-8 with replacement. -/
def decode (t : RegexTok) (ids : List Nat) : Except String (List Char) :=
  match decodeParts t.vocab t.inverse_special_tokens ids with
  | Except.ok parts => Except.ok (utf8DecodeToChars parts.flatten)
  | Except.error e => Except.error e

/-- The tokenizer used by several claims: fresh, with special token
`"<END>" -> 100256` registered. -/
def tokWithEnd : RegexTok :=
  register_special_tokens (freshTok ("p")) [(("<END>").toList, 100256)]

/-- C8 counterexample: registering a special token does NOT rebuild the
vocabulary.  After `register_special_tokens({"<END>": 100256})` on a fresh
tokenizer the vocabulary still has 256 entries, not
`256 + |merges| + |special_tokens| = 257`, and the special id is absent from
it. -/
theorem c8_register_no_rebuild_cex :
    tokWithEnd.vocab.length = 256 ∧
    tokWithEnd.merges.length = 0 ∧
    tokWithEnd.special_tokens.length = 1 ∧
    tokWithEnd.vocab.length ≠ 256 + 0 + 1 ∧
    alGet tokWithEnd.vocab 100256 = none := by
  have hv : tokWithEnd.vocab = byteVocab := rfl
  refine ⟨by rw [hv, byteVocab_length], rfl, rfl, by rw [hv, byteVocab_length]; omega, ?_⟩
  rw [hv]
  exact alGet_byteVocab_none (by omega)

/-- C8 amended: `register_special_tokens` replaces the special-token set and
rebuilds the inverse special-token map, but triggers no vocabulary rebuild:
the vocabulary (hence its size), the merge table and the pattern are left
unchanged, so special ids live outside the vocabulary and are resolved at
decode time through the inverse map.  (`_build_vocab` itself, used by
`__init__` and `load`, does include special tokens; `register_special_tokens`
simply never calls it.) -/
theorem c8_register_amended (t : RegexTok) (sp : List (List Char × Nat)) :
    (register_special_tokens t sp).special_tokens = sp ∧
    (register_special_tokens t sp).inverse_special_tokens =
      sp.foldl (fun d kv => alSet d kv.2 kv.1) [] ∧
    (register_special_tokens t sp).vocab = t.vocab ∧
    (register_special_tokens t sp).merges = t.merges ∧
    (register_special_tokens t sp).pattern = t.pattern ∧
    (register_special_tokens t sp).vocab.length = t.vocab.length :=
  ⟨rfl, rfl, rfl, rfl, rfl, rfl⟩

/-- C9: decode resolves vocabulary ids to their byte-strings and rejects ids
known to neither map with `ValueError` — but an id that is absent from the
vocabulary and present in the special-token reverse map does NOT resolve to
the UTF-8 encoding of its string: the code raises `NameError` because the
accumulator in that branch is misspelled `party_bytes` (the defined name is
`part_bytes`).  Evaluated on the registered-special tokenizer: a byte id
decodes fine, the special id crashes, an unknown id raises `ValueError`. -/
theorem c9_decode_special_crashes :
    decode tokWithEnd [104] = Except.ok (("h").toList) ∧
    decode tokWithEnd [100256] =
      Except.error ("NameError: name party_bytes is not defined") ∧
    decode tokWithEnd [999] = Except.error ("invalid token id: " ++ toString 999) := by
  refine ⟨?_, ?_, ?_⟩ <;> rfl

/-! ## `RegexTokenizer._encode_chunk` and `encode_ordinary` -/

/-- Comparison of `self.merges.get(p, float("inf"))` values:
`none` plays the role of infinity. -/
def optLt : Option Nat → Option Nat → Bool
  | some a, some b => a < b
  | some _, none => true
  | none, _ => false

theorem optLt_irrefl (a : Option Nat) : optLt a a = false := by
  cases a <;> simp [optLt]

theorem optLt_trans_false {a b c : Option Nat}
    (h1 : optLt a b = false) (h2 : optLt b c = false) : optLt a c = false := by
  cases a <;> cases b <;> cases c <;> simp [optLt] at * <;> omega

theorem optLt_true_false {a b c : Option Nat}
    (h1 : optLt a b = true) (h2 : optLt a c = false) : optLt b c = false := by
  cases a <;> cases b <;> cases c <;> simp [optLt] at * <;> omega

/-- `min(stats, key=lambda p: self.merges.get(p, float("inf")))`: Python `min`
keeps the first element of iteration order whose key value is minimal, so the
fold replaces the current best only on strictly smaller rank. -/
def dictMinByRank (merges : List ((Nat × Nat) × Nat)) :
    List ((Nat × Nat) × Nat) → Option (Nat × Nat)
  | [] => none
  | (k, _) :: rest =>
      some (rest.foldl
        (fun best kv =>
          if optLt (alGet merges kv.1) (alGet merges best) then kv.1 else best) k)

theorem foldmin_mem (merges : List ((Nat × Nat) × Nat)) :
    ∀ (l : List ((Nat × Nat) × Nat)) (init : Nat × Nat),
      l.foldl (fun best kv =>
          if optLt (alGet merges kv.1) (alGet merges best) then kv.1 else best) init
        ∈ init :: l.map Prod.fst := by
  intro l
  induction l with
  | nil => intro init; simp
  | cons kv rest ih =>
      intro init
      simp only [List.foldl_cons, List.map_cons]
      by_cases hc : optLt (alGet merges kv.1) (alGet merges init) = true
      · rw [if_pos hc]
        rcases List.mem_cons.mp (ih kv.1) with h | h
        · rw [h]
          exact List.mem_cons_of_mem _ (List.mem_cons_self _ _)
        · exact List.mem_cons_of_mem _ (List.mem_cons_of_mem _ h)
      · rw [if_neg hc]
        rcases List.mem_cons.mp (ih init) with h | h
        · rw [h]; exact List.mem_cons_self _ _
        · exact List.mem_cons_of_mem _ (List.mem_cons_of_mem _ h)

theorem foldmin_min (merges : List ((Nat × Nat) × Nat)) :
    ∀ (l : List ((Nat × Nat) × Nat)) (init x : Nat × Nat),
      x ∈ init :: l.map Prod.fst →
      optLt (alGet merges x)
        (alGet merges (l.foldl (fun best kv =>
          if optLt (alGet merges kv.1) (alGet merges best) then kv.1 else best) init))
        = false := by
  intro l
  induction l with
  | nil =>
      intro init x hx
      simp at hx
      subst hx
      exact optLt_irrefl _
  | cons kv rest ih =>
      intro init x hx
      simp only [List.foldl_cons]
      by_cases hc : optLt (alGet merges kv.1) (alGet merges init) = true
      · rw [if_pos hc]
        rcases List.mem_cons.mp hx with h | h
        · rw [h]
          exact optLt_true_false hc (ih kv.1 kv.1 (List.mem_cons_self _ _))
        · rcases List.mem_cons.mp h with h2 | h2
          · rw [h2]
            exact ih kv.1 kv.1 (List.mem_cons_self _ _)
          · exact ih kv.1 x (List.mem_cons_of_mem _ h2)
      · have hc' : optLt (alGet merges kv.1) (alGet merges init) = false := by
          revert hc
          cases optLt (alGet merges kv.1) (alGet merges init) <;> simp
        rw [if_neg hc]
        rcases List.mem_cons.mp hx with h | h
        · rw [h]
          exact ih init init (List.mem_cons_self _ _)
        · rcases List.mem_cons.mp h with h2 | h2
          · rw [h2]
            exact optLt_trans_false hc' (ih init init (List.mem_cons_self _ _))
          · exact ih init x (List.mem_cons_of_mem _ h2)

theorem dictMinByRank_mem (merges : List ((Nat × Nat) × Nat))
    {stats : List ((Nat × Nat) × Nat)} {sel : Nat × Nat}
    (h : dictMinByRank merges stats = some sel) : sel ∈ stats.map Prod.fst := by
  cases stats with
  | nil => simp [dictMinByRank] at h
  | cons kv rest =>
      obtain ⟨k, v⟩ := kv
      simp only [dictMinByRank, Option.some.injEq] at h
      rw [← h]
      simpa using foldmin_mem merges rest k

theorem dictMinByRank_min (merges : List ((Nat × Nat) × Nat))
    {stats : List ((Nat × Nat) × Nat)} {sel : Nat × Nat}
    (h : dictMinByRank merges stats = some sel) :
    ∀ x ∈ stats.map Prod.fst, optLt (alGet merges x) (alGet merges sel) = false := by
  cases stats with
  | nil => simp [dictMinByRank] at h
  | cons kv rest =>
      obtain ⟨k, v⟩ := kv
      simp only [dictMinByRank, Option.some.injEq] at h
      intro x hx
      rw [← h]
      apply foldmin_min merges rest k x
      simpa using hx

theorem stats_fold_keys (L : List (Nat × Nat)) :
    ∀ (acc : List ((Nat × Nat) × Nat)) (p : Nat × Nat),
      (alGet (L.foldl (fun cs q => alSet cs q ((alGet cs q).getD 0 + 1)) acc) p).isSome
          = true →
      (alGet acc p).isSome = true ∨ p ∈ L := by
  induction L with
  | nil => intro acc p h; exact Or.inl h
  | cons q L2 ih =>
      intro acc p h
      rcases ih _ p h with h2 | h2
      · rw [alGet_alSet] at h2
        by_cases hpq : p = q
        · exact Or.inr (hpq ▸ List.mem_cons_self _ _)
        · rw [if_neg hpq] at h2
          exact Or.inl h2
      · exact Or.inr (List.mem_cons_of_mem _ h2)

theorem get_stats_keys {ids : List Nat} {p : Nat × Nat}
    (h : (alGet (get_stats ids []) p).isSome = true) : p ∈ ids.zip ids.tail := by
  unfold get_stats at h
  rcases stats_fold_keys (ids.zip ids.tail) [] p h with h2 | h2
  · simp [alGet] at h2
  · exact h2

theorem mem_zip_tail {ids : List Nat} {p : Nat × Nat}
    (h : p ∈ ids.zip ids.tail) : p.1 ∈ ids ∧ p.2 ∈ ids := by
  induction ids with
  | nil => simp at h
  | cons x rest ih =>
      cases rest with
      | nil => simp at h
      | cons y r =>
          rcases List.mem_cons.mp h with h2 | h2
          · rw [h2]
            exact ⟨List.mem_cons_self _ _,
              List.mem_cons_of_mem _ (List.mem_cons_self _ _)⟩
          · obtain ⟨ha, hb⟩ := ih h2
            exact ⟨List.mem_cons_of_mem _ ha, List.mem_cons_of_mem _ hb⟩

theorem merge_length_le (ids : List Nat) (p : Nat × Nat) (idx : Nat) :
    (merge ids p idx).length ≤ ids.length := by
  induction ids, p, idx using merge.induct with
  | case1 => simp [merge]
  | case2 => simp [merge]
  | case3 x y rest pair idx hc ih =>
      simp only [merge, if_pos hc, List.length_cons]
      simp at *
      omega
  | case4 x y rest pair idx hc ih =>
      simp only [merge, if_neg hc, List.length_cons]
      simp at *
      omega

theorem merge_length_lt : ∀ {ids : List Nat} {p : Nat × Nat} {idx : Nat},
    p ∈ ids.zip ids.tail → (merge ids p idx).length < ids.length := by
  intro ids
  induction ids with
  | nil => intro p idx h; simp at h
  | cons x rest ih =>
      intro p idx h
      cases rest with
      | nil => simp at h
      | cons y r =>
          by_cases hc : x = p.1 ∧ y = p.2
          · have hle := merge_length_le r p idx
            simp only [merge, if_pos hc, List.length_cons]
            omega
          · have hp : p ∈ (y :: r).zip ((y :: r).tail) := by
              rcases List.mem_cons.mp h with h2 | h2
              · exfalso
                apply hc
                rw [h2]
                exact ⟨rfl, rfl⟩
              · exact h2
            have hlt := @ih p idx hp
            simp only [List.length_cons] at hlt
            simp only [merge, if_neg hc, List.length_cons]
            omega

/-- `RegexTokenizer._encode_chunk`: repeatedly pick, among the adjacent pairs
of the current sequence, the one whose merge index is lowest (Python `min`
with key `merges.get(p, inf)`), stop when that pair is not in the merge table,
otherwise apply the merge and loop.  The `none` fallback of the first inner
match is unreachable: a sequence of length ≥ 2 always has a nonempty stats
dict. -/
def _encode_chunk (merges : List ((Nat × Nat) × Nat)) (ids : List Nat) : List Nat :=
  if 2 ≤ ids.length then
    match hm : dictMinByRank merges (get_stats ids []) with
    | none => ids
    | some pair =>
      match alGet merges pair with
      | none => ids
      | some idx => _encode_chunk merges (merge ids pair idx)
  else ids
termination_by ids.length
decreasing_by
  have h1 : pair ∈ (get_stats ids []).map Prod.fst := dictMinByRank_mem merges hm
  have h3 : (alGet (get_stats ids []) pair).isSome = true := by
    obtain ⟨pc, hmem, hfst⟩ := List.mem_map.mp h1
    obtain ⟨p2, c⟩ := pc
    simp at hfst
    subst hfst
    exact alGet_mem_isSome hmem
  exact merge_length_lt (get_stats_keys h3)

/-- `RegexTokenizer.encode_ordinary`: split into chunks, encode each chunk's
UTF-8 bytes independently, concatenate. -/
def encode_ordinary (t : RegexTok) (split : List Char → List (List Char))
    (text : List Char) : List Nat :=
  (split text).flatMap (fun chunk => _encode_chunk t.merges (utf8Encode chunk))

/-- C3: at encode time, among the adjacent pairs present in the sequence that
exist in the merge table, the selected pair carries the lowest assigned merge
id (Python `min` keyed by `merges.get`); and concretely, with the merge table
`[(1,2) -> 256, (256,3) -> 257]`, encoding the raw byte sequence `[1, 2, 3]`
applies `(1,2) -> 256` first and yields `[257]`, not `[256, 3]`. -/
theorem c3_priority :
    (∀ (merges stats : List ((Nat × Nat) × Nat)) (sel : Nat × Nat),
        dictMinByRank merges stats = some sel →
        ∀ p c, (p, c) ∈ stats → ∀ j, alGet merges p = some j →
          ∃ i, alGet merges sel = some i ∧ i ≤ j) ∧
    _encode_chunk [((1, 2), 256), ((256, 3), 257)] [1, 2, 3] = [257] ∧
    _encode_chunk [((1, 2), 256), ((256, 3), 257)] [1, 2, 3] ≠ [256, 3] := by
  have s1 : _encode_chunk [((1, 2), 256), ((256, 3), 257)] [1, 2, 3]
      = _encode_chunk [((1, 2), 256), ((256, 3), 257)] [256, 3] := by
    rw [_encode_chunk.eq_def]
    rfl
  have s2 : _encode_chunk [((1, 2), 256), ((256, 3), 257)] [256, 3]
      = _encode_chunk [((1, 2), 256), ((256, 3), 257)] [257] := by
    rw [_encode_chunk.eq_def]
    rfl
  have s3 : _encode_chunk [((1, 2), 256), ((256, 3), 257)] [257] = [257] := by
    rw [_encode_chunk.eq_def]
    rfl
  have heval : _encode_chunk [((1, 2), 256), ((256, 3), 257)] [1, 2, 3] = [257] := by
    rw [s1, s2, s3]
  refine ⟨?_, heval, by rw [heval]; decide⟩
  intro merges stats sel hsel p c hmem j hj
  have hp : p ∈ stats.map Prod.fst := List.mem_map.mpr ⟨(p, c), hmem, rfl⟩
  have hmin := dictMinByRank_min merges hsel p hp
  rw [hj] at hmin
  cases hsel2 : alGet merges sel with
  | none =>
      rw [hsel2] at hmin
      simp [optLt] at hmin
  | some i =>
      rw [hsel2] at hmin
      simp [optLt] at hmin
      exact ⟨i, rfl, hmin⟩

/-- Witness for C3: the selection property applied to the concrete state of
the claim, where the sequence `[1, 2, 3]` offers pairs `(1,2)` (merge id 256)
and `(2,3)` (not in the table): the selected pair is `(1,2)`. -/
theorem c3_priority_witness :
    dictMinByRank [((1, 2), 256), ((256, 3), 257)]
        (get_stats [1, 2, 3] []) = some (1, 2) ∧
    ((1, 2), 1) ∈ get_stats [1, 2, 3] [] ∧
    alGet [((1, 2), 256), ((256, 3), 257)] (1, 2) = some 256 ∧
    ∃ i, alGet [((1, 2), 256), ((256, 3), 257)] (1, 2) = some i ∧ i ≤ 256 := by
  refine ⟨by decide, by decide, by decide, ?_⟩
  exact c3_priority.1 [((1, 2), 256), ((256, 3), 257)] (get_stats [1, 2, 3] [])
    (1, 2) (by decide) (1, 2) 1 (by decide) 256 (by decide)

/-! ## `RegexTokenizer.train` -/

/-- Tail of `max(stats, key=stats.get)`: keep the first key attaining the
maximum (replace only on a strictly greater count). -/
def dictMaxGo (best : Nat × Nat) (bestv : Nat) :
    List ((Nat × Nat) × Nat) → Nat × Nat
  | [] => best
  | (k, v) :: rest =>
      if bestv < v then dictMaxGo k v rest else dictMaxGo best bestv rest

/-- `max(stats, key=stats.get)`; `none` when the dict is empty, in which case
Python raises `ValueError`. -/
def dictMaxByVal : List ((Nat × Nat) × Nat) → Option (Nat × Nat)
  | [] => none
  | (k, v) :: rest => some (dictMaxGo k v rest)

theorem dictMaxGo_mem :
    ∀ (l : List ((Nat × Nat) × Nat)) (best : Nat × Nat) (bestv : Nat),
      dictMaxGo best bestv l ∈ best :: l.map Prod.fst := by
  intro l
  induction l with
  | nil => intro best bestv; simp [dictMaxGo]
  | cons kv rest ih =>
      intro best bestv
      obtain ⟨k, v⟩ := kv
      simp only [dictMaxGo, List.map_cons]
      by_cases hc : bestv < v
      · rw [if_pos hc]
        rcases List.mem_cons.mp (ih k v) with h | h
        · rw [h]
          exact List.mem_cons_of_mem _ (List.mem_cons_self _ _)
        · exact List.mem_cons_of_mem _ (List.mem_cons_of_mem _ h)
      · rw [if_neg hc]
        rcases List.mem_cons.mp (ih best bestv) with h | h
        · rw [h]
          exact List.mem_cons_self _ _
        · exact List.mem_cons_of_mem _ (List.mem_cons_of_mem _ h)

theorem dictMaxByVal_mem {stats : List ((Nat × Nat) × Nat)} {sel : Nat × Nat}
    (h : dictMaxByVal stats = some sel) : sel ∈ stats.map Prod.fst := by
  cases stats with
  | nil => simp [dictMaxByVal] at h
  | cons kv rest =>
      obtain ⟨k, v⟩ := kv
      simp only [dictMaxByVal, Option.some.injEq] at h
      rw [← h]
      simpa using dictMaxGo_mem rest k v

theorem get_stats_keys_acc {ids : List Nat} {acc : List ((Nat × Nat) × Nat)}
    {p : Nat × Nat} (h : (alGet (get_stats ids acc) p).isSome = true) :
    (alGet acc p).isSome = true ∨ p ∈ ids.zip ids.tail := by
  unfold get_stats at h
  exact stats_fold_keys (ids.zip ids.tail) acc p h

theorem trainStats_keys (idss : List (List Nat)) :
    ∀ (acc : List ((Nat × Nat) × Nat)) (p : Nat × Nat),
      (alGet (idss.foldl (fun acc chunk => get_stats chunk acc) acc) p).isSome = true →
      (alGet acc p).isSome = true ∨ ∃ chunk ∈ idss, p ∈ chunk.zip chunk.tail := by
  induction idss with
  | nil => intro acc p h; exact Or.inl h
  | cons c rest ih =>
      intro acc p h
      rcases ih _ p h with h2 | h2
      · rcases get_stats_keys_acc h2 with h3 | h3
        · exact Or.inl h3
        · exact Or.inr ⟨c, List.mem_cons_self _ _, h3⟩
      · obtain ⟨ch, hc, hm⟩ := h2
        exact Or.inr ⟨ch, List.mem_cons_of_mem _ hc, hm⟩

theorem mem_merge (ids : List Nat) (p : Nat × Nat) (idx : Nat) :
    ∀ x ∈ merge ids p idx, x = idx ∨ x ∈ ids := by
  induction ids, p, idx using merge.induct with
  | case1 p idx =>
      intro x hx
      simp [merge] at hx
  | case2 y p idx =>
      intro x hx
      simp [merge] at hx
      exact Or.inr (by simp [hx])
  | case3 a b rest pair idx hc ih =>
      intro x hx
      simp only [merge, if_pos hc] at hx
      rcases List.mem_cons.mp hx with h1 | h1
      · exact Or.inl h1
      · rcases ih x h1 with h2 | h2
        · exact Or.inl h2
        · exact Or.inr
            (List.mem_cons_of_mem _ (List.mem_cons_of_mem _ h2))
  | case4 a b rest pair idx hc ih =>
      intro x hx
      simp only [merge, if_neg hc] at hx
      rcases List.mem_cons.mp hx with h1 | h1
      · exact Or.inr (by simp [h1])
      · rcases ih x h1 with h2 | h2
        · exact Or.inl h2
        · exact Or.inr (List.mem_cons_of_mem _ h2)

/-- One round of `RegexTokenizer.train`: aggregate pair statistics over all
chunks, pick the most frequent pair (`max` of an empty stats dict raises
`ValueError`), mint `idx = 256 + i`, rewrite every chunk, record the merge and
extend the vocab (`vocab[pair[0]] + vocab[pair[1]]` would raise `KeyError`
were a component missing). -/
def trainStep (i : Nat) (idss : List (List Nat))
    (merges : List ((Nat × Nat) × Nat)) (vocab : List (Nat × List Nat)) :
    Except String
      (List (List Nat) × List ((Nat × Nat) × Nat) × List (Nat × List Nat)) :=
  match dictMaxByVal (idss.foldl (fun acc chunk => get_stats chunk acc) []) with
  | none => Except.error ("ValueError: max() arg is an empty sequence")
  | some pair =>
    match alGet vocab pair.1, alGet vocab pair.2 with
    | some va, some vb =>
        Except.ok (idss.map (fun c => merge c pair (256 + i)),
          alSet merges pair (256 + i), alSet vocab (256 + i) (va ++ vb))
    | _, _ => Except.error ("KeyError")

/-- The `for i in range(num_merges)` loop of `train`, with `i` the current
round index and the second argument the number of rounds left. -/
def trainGo : Nat → Nat → List (List Nat) → List ((Nat × Nat) × Nat) →
    List (Nat × List Nat) →
    Except String (List ((Nat × Nat) × Nat) × List (Nat × List Nat))
  | _, 0, _, merges, vocab => Except.ok (merges, vocab)
  | i, n + 1, idss, merges, vocab =>
    match trainStep i idss merges vocab with
    | Except.ok (idss2, merges2, vocab2) => trainGo (i + 1) n idss2 merges2 vocab2
    | Except.error e => Except.error e

/-- `RegexTokenizer.train`: assert `vocab_size >= 256`, split the text into
chunks, convert each chunk to its UTF-8 byte ids, run `num_merges` rounds,
then store the merge table and the incrementally built vocabulary. -/
def train (t : RegexTok) (split : List Char → List (List Char))
    (text : List Char) (vocab_size : Nat) : Except String RegexTok :=
  if vocab_size < 256 then Except.error ("AssertionError: vocab_size >= 256")
  else
    match trainGo 0 (vocab_size - 256) ((split text).map utf8Encode) [] byteVocab with
    | Except.ok (m, v) => Except.ok { t with merges := m, vocab := v }
    | Except.error e => Except.error e

/-- Consistency of a merge table with a vocabulary: byte ids map to their
singleton byte-strings, and each recorded merge's inputs and output have
vocabulary entries with the product the concatenation of its factors. -/
def MergesVocabOK (merges : List ((Nat × Nat) × Nat))
    (vocab : List (Nat × List Nat)) : Prop :=
  (∀ b, b < 256 → alGet vocab b = some [b]) ∧
  (∀ a b j, alGet merges (a, b) = some j →
    ∃ va vb, alGet vocab a = some va ∧ alGet vocab b = some vb ∧
      alGet vocab j = some (va ++ vb))

/-- Invariant carried through training round `i`. -/
structure TrainInv (i : Nat) (idss : List (List Nat))
    (merges : List ((Nat × Nat) × Nat)) (vocab : List (Nat × List Nat)) : Prop where
  bytes : ∀ b, b < 256 → alGet vocab b = some [b]
  keysLt : ∀ k, (alGet vocab k).isSome = true → k < 256 + i
  mergesOk : ∀ a b j, alGet merges (a, b) = some j →
    ∃ va vb, alGet vocab a = some va ∧ alGet vocab b = some vb ∧
      alGet vocab j = some (va ++ vb)
  chunksOk : ∀ chunk ∈ idss, ∀ x ∈ chunk, (alGet vocab x).isSome = true

theorem utf8EncodeCharNat_lt {c x : Nat} (hc : c < 0x110000)
    (hx : x ∈ utf8EncodeCharNat c) : x < 256 := by
  by_cases h1 : c < 0x80
  · simp [utf8EncodeCharNat, h1] at hx
    omega
  · by_cases h2 : c < 0x800
    · simp [utf8EncodeCharNat, h1, h2] at hx
      rcases hx with h | h <;> omega
    · by_cases h3 : c < 0x10000
      · simp [utf8EncodeCharNat, h1, h2, h3] at hx
        rcases hx with h | h | h <;> omega
      · simp [utf8EncodeCharNat, h1, h2, h3] at hx
        rcases hx with h | h | h | h <;> omega

theorem char_toNat_lt (c : Char) : c.toNat < 0x110000 := by
  have hv := c.valid
  rcases hv with h | h
  · have : c.toNat = c.val.toNat := rfl
    omega
  · have : c.toNat = c.val.toNat := rfl
    omega

theorem utf8Encode_lt_256 {s : List Char} {x : Nat} (hx : x ∈ utf8Encode s) :
    x < 256 := by
  unfold utf8Encode at hx
  obtain ⟨c, hc, hxc⟩ := List.mem_flatMap.mp hx
  exact utf8EncodeCharNat_lt (char_toNat_lt c) hxc

theorem trainInv_init (chunks : List (List Char)) :
    TrainInv 0 (chunks.map utf8Encode) [] byteVocab := by
  constructor
  · intro b hb
    exact alGet_byteVocab hb
  · intro k hk
    have := byteVocab_keys_lt hk
    omega
  · intro a b j hj
    simp [alGet] at hj
  · intro chunk hc x hx
    obtain ⟨c0, hc0, hmap⟩ := List.mem_map.mp hc
    rw [← hmap] at hx
    rw [alGet_byteVocab (utf8Encode_lt_256 hx)]
    rfl

theorem trainStep_spec {i : Nat} {idss : List (List Nat)}
    {merges : List ((Nat × Nat) × Nat)} {vocab : List (Nat × List Nat)}
    (hinv : TrainInv i idss merges vocab) :
    trainStep i idss merges vocab =
      Except.error ("ValueError: max() arg is an empty sequence") ∨
    ∃ idss2 merges2 vocab2,
      trainStep i idss merges vocab = Except.ok (idss2, merges2, vocab2) ∧
      TrainInv (i + 1) idss2 merges2 vocab2 := by
  unfold trainStep
  cases hmax : dictMaxByVal (idss.foldl (fun acc chunk => get_stats chunk acc) []) with
  | none => exact Or.inl rfl
  | some pair =>
      have hkey : ∃ chunk ∈ idss, pair ∈ chunk.zip chunk.tail := by
        have h1 := dictMaxByVal_mem hmax
        obtain ⟨pc, hmem, hfst⟩ := List.mem_map.mp h1
        obtain ⟨p2, cnt⟩ := pc
        simp at hfst
        subst hfst
        have h2 : (alGet (idss.foldl (fun acc chunk => get_stats chunk acc) []) p2).isSome
            = true := alGet_mem_isSome hmem
        rcases trainStats_keys idss [] p2 h2 with h3 | h3
        · simp [alGet] at h3
        · exact h3
      obtain ⟨chunk, hchunk, hzip⟩ := hkey
      obtain ⟨hm1, hm2⟩ := mem_zip_tail hzip
      have hv1 : (alGet vocab pair.1).isSome = true :=
        hinv.chunksOk chunk hchunk pair.1 hm1
      have hv2 : (alGet vocab pair.2).isSome = true :=
        hinv.chunksOk chunk hchunk pair.2 hm2
      obtain ⟨va, hva⟩ := Option.isSome_iff_exists.mp hv1
      obtain ⟨vb, hvb⟩ := Option.isSome_iff_exists.mp hv2
      simp only [hva, hvb]
      refine Or.inr ⟨_, _, _, rfl, ?_⟩
      have hlt1 : pair.1 < 256 + i := hinv.keysLt pair.1 hv1
      have hlt2 : pair.2 < 256 + i := hinv.keysLt pair.2 hv2
      constructor
      · intro b hb
        rw [alGet_alSet, if_neg (by omega)]
        exact hinv.bytes b hb
      · intro k hk
        rw [alGet_alSet] at hk
        by_cases hki : k = 256 + i
        · omega
        · rw [if_neg hki] at hk
          have := hinv.keysLt k hk
          omega
      · intro a b j hj
        rw [alGet_alSet] at hj
        by_cases hab : (a, b) = pair
        · rw [if_pos hab] at hj
          have hj2 : j = 256 + i := by
            injection hj with hj2
            omega
          have ha : a = pair.1 := by rw [← hab]
          have hb : b = pair.2 := by rw [← hab]
          refine ⟨va, vb, ?_, ?_, ?_⟩
          · rw [ha, alGet_alSet, if_neg (by omega)]
            exact hva
          · rw [hb, alGet_alSet, if_neg (by omega)]
            exact hvb
          · rw [hj2, alGet_alSet, if_pos rfl]
        · rw [if_neg hab] at hj
          obtain ⟨va2, vb2, hva2, hvb2, hvj2⟩ := hinv.mergesOk a b j hj
          have hka : a < 256 + i := hinv.keysLt a (by rw [hva2]; rfl)
          have hkb : b < 256 + i := hinv.keysLt b (by rw [hvb2]; rfl)
          have hkj : j < 256 + i := hinv.keysLt j (by rw [hvj2]; rfl)
          refine ⟨va2, vb2, ?_, ?_, ?_⟩
          · rw [alGet_alSet, if_neg (by omega)]
            exact hva2
          · rw [alGet_alSet, if_neg (by omega)]
            exact hvb2
          · rw [alGet_alSet, if_neg (by omega)]
            exact hvj2
      · intro chunk2 hc x hx
        obtain ⟨c0, hc0, hmap⟩ := List.mem_map.mp hc
        rw [← hmap] at hx
        rcases mem_merge c0 pair (256 + i) x hx with h | h
        · rw [h, alGet_alSet, if_pos rfl]
          rfl
        · have hs := hinv.chunksOk c0 hc0 x h
          have := hinv.keysLt x hs
          rw [alGet_alSet, if_neg (by omega)]
          exact hs

theorem trainGo_spec :
    ∀ (n i : Nat) (idss : List (List Nat)) (merges : List ((Nat × Nat) × Nat))
      (vocab : List (Nat × List Nat)),
      TrainInv i idss merges vocab →
      (∃ m v, trainGo i n idss merges vocab = Except.ok (m, v) ∧ MergesVocabOK m v) ∨
      trainGo i n idss merges vocab =
        Except.error ("ValueError: max() arg is an empty sequence") := by
  intro n
  induction n with
  | zero =>
      intro i idss merges vocab hinv
      exact Or.inl ⟨merges, vocab, rfl, hinv.bytes, hinv.mergesOk⟩
  | succ k ih =>
      intro i idss merges vocab hinv
      rcases trainStep_spec hinv with herr | ⟨idss2, merges2, vocab2, hok, hinv2⟩
      · right
        unfold trainGo
        rw [herr]
      · unfold trainGo
        rw [hok]
        exact ih (i + 1) idss2 merges2 vocab2 hinv2

/-- Every successful `train` produces a merge table and vocabulary that are
consistent in the sense of `MergesVocabOK`. -/
theorem train_ok_MergesVocabOK {t t2 : RegexTok}
    {split : List Char → List (List Char)} {text : List Char} {vocab_size : Nat}
    (h : train t split text vocab_size = Except.ok t2) :
    MergesVocabOK t2.merges t2.vocab := by
  unfold train at h
  by_cases hvs : vocab_size < 256
  · rw [if_pos hvs] at h
    cases h
  · rw [if_neg hvs] at h
    rcases trainGo_spec (vocab_size - 256) 0 ((split text).map utf8Encode) []
        byteVocab (trainInv_init (split text)) with ⟨m, v, hok, hmv⟩ | herr
    · rw [hok] at h
      injection h with h2
      rw [← h2]
      exact hmv
    · rw [herr] at h
      cases h

/-- C7 counterexample: `train` CAN crash on a short corpus.  With the text
`"ab"` kept as a single chunk and `vocab_size = 258`, round 0 merges
`(97, 98) -> 256`, after which every chunk has length 1; round 1 then computes
an empty pair-statistics dict and `max(stats, key=stats.get)` raises
`ValueError: max() arg is an empty sequence`. -/
theorem c7_train_crash_cex :
    train (freshTok ("p")) (fun t => [t]) (("ab").toList) 258 =
      Except.error ("ValueError: max() arg is an empty sequence") := rfl

/-- C7 amended: for `vocab_size ≥ 256`, `train` either completes successfully
or raises the `ValueError` coming from `max()` over an empty statistics dict
(when some round finds no adjacent pair left in any chunk — the too-short
corpus case); no other failure (in particular no `KeyError` from the
vocabulary update) is possible.  It does not stop early. -/
theorem c7_train_amended (t : RegexTok) (split : List Char → List (List Char))
    (text : List Char) (vocab_size : Nat) (h : 256 ≤ vocab_size) :
    (∃ t2, train t split text vocab_size = Except.ok t2) ∨
    train t split text vocab_size =
      Except.error ("ValueError: max() arg is an empty sequence") := by
  unfold train
  rw [if_neg (by omega)]
  rcases trainGo_spec (vocab_size - 256) 0 ((split text).map utf8Encode) []
      byteVocab (trainInv_init (split text)) with ⟨m, v, hok, _⟩ | herr
  · rw [hok]
    exact Or.inl ⟨_, rfl⟩
  · rw [herr]
    exact Or.inr rfl

/-- Witness for C7's amended theorem, at the concrete crashing input. -/
theorem c7_train_amended_witness :
    256 ≤ 258 ∧
    ((∃ t2, train (freshTok ("p")) (fun t => [t]) (("ab").toList) 258 = Except.ok t2) ∨
      train (freshTok ("p")) (fun t => [t]) (("ab").toList) 258 =
        Except.error ("ValueError: max() arg is an empty sequence")) :=
  ⟨by omega,
    c7_train_amended (freshTok ("p")) (fun t => [t]) (("ab").toList) 258 (by omega)⟩

/-! ## Round trip (C1): `decode(encode_ordinary(text)) == text` -/

/-- Byte expansion of an id sequence under a vocabulary (absent ids contribute
nothing; in the theorems below every id has an entry). -/
def bytesOf (vocab : List (Nat × List Nat)) (ids : List Nat) : List Nat :=
  ids.flatMap (fun i => (alGet vocab i).getD [])

theorem bytesOf_cons (vocab : List (Nat × List Nat)) (i : Nat) (l : List Nat) :
    bytesOf vocab (i :: l) = (alGet vocab i).getD [] ++ bytesOf vocab l := rfl

theorem bytesOf_append (vocab : List (Nat × List Nat)) (l1 l2 : List Nat) :
    bytesOf vocab (l1 ++ l2) = bytesOf vocab l1 ++ bytesOf vocab l2 := by
  simp [bytesOf]

/-- Applying a recorded merge does not change the byte expansion. -/
theorem bytesOf_merge {vocab : List (Nat × List Nat)} {a b idx : Nat}
    {va vb : List Nat}
    (hva : alGet vocab a = some va) (hvb : alGet vocab b = some vb)
    (hvi : alGet vocab idx = some (va ++ vb)) :
    ∀ ids, bytesOf vocab (merge ids (a, b) idx) = bytesOf vocab ids := by
  have H : ∀ n ids, ids.length ≤ n →
      bytesOf vocab (merge ids (a, b) idx) = bytesOf vocab ids := by
    intro n
    induction n with
    | zero =>
        intro ids hlen
        cases ids with
        | nil => rfl
        | cons x r => simp at hlen
    | succ k ih =>
        intro ids hlen
        cases ids with
        | nil => rfl
        | cons x rest =>
            cases rest with
            | nil => rfl
            | cons y r =>
                by_cases hc : x = a ∧ y = b
                · have e : merge (x :: y :: r) (a, b) idx
                      = idx :: merge r (a, b) idx := by
                    simp [merge, hc]
                  rw [e]
                  simp only [bytesOf_cons]
                  rw [ih r (by simp at hlen; omega), hvi, hc.1, hc.2, hva, hvb]
                  simp
                · have e : merge (x :: y :: r) (a, b) idx
                      = x :: merge (y :: r) (a, b) idx := by
                    simp [merge, hc]
                  rw [e]
                  simp only [bytesOf_cons]
                  rw [ih (y :: r) (by simp at hlen; simp only [List.length_cons]; omega)]
                  simp only [bytesOf_cons]
  intro ids
  exact H ids.length ids le_rfl

theorem encode_chunk_short {merges : List ((Nat × Nat) × Nat)} {ids : List Nat}
    (h : ¬ 2 ≤ ids.length) : _encode_chunk merges ids = ids := by
  rw [_encode_chunk.eq_def, if_neg h]

theorem encode_chunk_nostats {merges : List ((Nat × Nat) × Nat)} {ids : List Nat}
    (h2 : 2 ≤ ids.length)
    (hm : dictMinByRank merges (get_stats ids []) = none) :
    _encode_chunk merges ids = ids := by
  rw [_encode_chunk.eq_def, if_pos h2]
  split
  · rfl
  · rename_i q hq
    rw [hm] at hq
    cases hq

theorem encode_chunk_stop {merges : List ((Nat × Nat) × Nat)} {ids : List Nat}
    {pair : Nat × Nat} (h2 : 2 ≤ ids.length)
    (hm : dictMinByRank merges (get_stats ids []) = some pair)
    (hp : alGet merges pair = none) : _encode_chunk merges ids = ids := by
  rw [_encode_chunk.eq_def, if_pos h2]
  split
  · rename_i hq
    rw [hm] at hq
  · rename_i q hq
    rw [hm] at hq
    injection hq with hq
    subst hq
    rw [hp]

theorem encode_chunk_step {merges : List ((Nat × Nat) × Nat)} {ids : List Nat}
    {pair : Nat × Nat} {idx : Nat} (h2 : 2 ≤ ids.length)
    (hm : dictMinByRank merges (get_stats ids []) = some pair)
    (hp : alGet merges pair = some idx) :
    _encode_chunk merges ids = _encode_chunk merges (merge ids pair idx) := by
  rw [_encode_chunk.eq_def, if_pos h2]
  split
  · rename_i hq
    rw [hm] at hq
    cases hq
  · rename_i q hq
    rw [hm] at hq
    injection hq with hq
    subst hq
    rw [hp]

/-- `_encode_chunk` keeps every id inside the vocabulary and preserves the
byte expansion, whenever merges and vocabulary are consistent. -/
theorem encode_chunk_spec {merges : List ((Nat × Nat) × Nat)}
    {vocab : List (Nat × List Nat)} (hok : MergesVocabOK merges vocab) :
    ∀ ids, (∀ x ∈ ids, (alGet vocab x).isSome = true) →
      (∀ x ∈ _encode_chunk merges ids, (alGet vocab x).isSome = true) ∧
      bytesOf vocab (_encode_chunk merges ids) = bytesOf vocab ids := by
  intro ids
  induction ids using _encode_chunk.induct merges with
  | case1 ids h2 hm =>
      intro h
      rw [encode_chunk_nostats h2 hm]
      exact ⟨h, rfl⟩
  | case2 ids h2 pair hm hp =>
      intro h
      rw [encode_chunk_stop h2 hm hp]
      exact ⟨h, rfl⟩
  | case3 ids h2 pair hm idx hp ih =>
      intro h
      rw [encode_chunk_step h2 hm hp]
      obtain ⟨va, vb, hva, hvb, hvi⟩ := hok.2 pair.1 pair.2 idx hp
      have hmem : ∀ x ∈ merge ids pair idx, (alGet vocab x).isSome = true := by
        intro x hx
        rcases mem_merge ids pair idx x hx with hxe | hxm
        · rw [hxe, hvi]
          rfl
        · exact h x hxm
      obtain ⟨ih1, ih2⟩ := ih hmem
      refine ⟨ih1, ?_⟩
      rw [ih2]
      exact bytesOf_merge hva hvb hvi ids
  | case4 ids h2 =>
      intro h
      rw [encode_chunk_short h2]
      exact ⟨h, rfl⟩

/-- `decode`'s per-id loop succeeds on ids that all have vocabulary entries,
and produces exactly the byte expansion. -/
theorem decodeParts_ok {vocab : List (Nat × List Nat)} {inv : List (Nat × List Char)} :
    ∀ ids, (∀ x ∈ ids, (alGet vocab x).isSome = true) →
      ∃ parts, decodeParts vocab inv ids = Except.ok parts ∧
        parts.flatten = bytesOf vocab ids := by
  intro ids
  induction ids with
  | nil => exact fun _ => ⟨[], rfl, rfl⟩
  | cons i rest ih =>
      intro h
      obtain ⟨v, hv⟩ :=
        Option.isSome_iff_exists.mp (h i (List.mem_cons_self _ _))
      obtain ⟨parts, hp, hf⟩ := ih (fun x hx => h x (List.mem_cons_of_mem _ hx))
      refine ⟨v :: parts, ?_, ?_⟩
      · simp [decodeParts, hv, hp]
      · simp [bytesOf_cons, hv, hf]

theorem bytesOf_bytes {vocab : List (Nat × List Nat)}
    (hb : ∀ b, b < 256 → alGet vocab b = some [b]) :
    ∀ {ids : List Nat}, (∀ x ∈ ids, x < 256) → bytesOf vocab ids = ids := by
  intro ids
  induction ids with
  | nil => exact fun _ => rfl
  | cons i rest ih =>
      intro h
      rw [bytesOf_cons, hb i (h i (List.mem_cons_self _ _)),
        ih (fun x hx => h x (List.mem_cons_of_mem _ hx))]
      rfl

theorem utf8Encode_flatten (L : List (List Char)) :
    utf8Encode L.flatten = L.flatMap utf8Encode := by
  induction L with
  | nil => rfl
  | cons c rest ih => simp [utf8Encode_append, ih]

theorem bytesOf_flatMap {α : Type} (vocab : List (Nat × List Nat))
    (l : List α) (f : α → List Nat) :
    bytesOf vocab (l.flatMap f) = l.flatMap (fun c => bytesOf vocab (f c)) := by
  induction l with
  | nil => rfl
  | cons c rest ih => simp [List.flatMap_cons, bytesOf_append, ih]

theorem flatMap_congr_on {α β : Type} {l : List α} {f g : α → List β}
    (h : ∀ c ∈ l, f c = g c) : l.flatMap f = l.flatMap g := by
  induction l with
  | nil => rfl
  | cons c rest ih =>
      simp only [List.flatMap_cons]
      rw [h c (List.mem_cons_self _ _),
        ih (fun x hx => h x (List.mem_cons_of_mem _ hx))]

/-- Round trip at the level of consistent states: every id produced by
`encode_ordinary` is in the vocabulary, decoding resolves them to exactly the
UTF-8 bytes of the text, and UTF-8 decoding with replacement restores the
text. -/
theorem decode_encode_ordinary {t : RegexTok}
    (hok : MergesVocabOK t.merges t.vocab)
    (split : List Char → List (List Char)) (text : List Char)
    (hsplit : (split text).flatten = text) :
    decode t (encode_ordinary t split text) = Except.ok text := by
  have hids : ∀ x ∈ encode_ordinary t split text,
      (alGet t.vocab x).isSome = true := by
    intro x hx
    unfold encode_ordinary at hx
    obtain ⟨chunk, hc, hxc⟩ := List.mem_flatMap.mp hx
    have hbytes : ∀ y ∈ utf8Encode chunk, (alGet t.vocab y).isSome = true := by
      intro y hy
      rw [hok.1 y (utf8Encode_lt_256 hy)]
      rfl
    exact (encode_chunk_spec hok (utf8Encode chunk) hbytes).1 x hxc
  obtain ⟨parts, hp, hf⟩ := decodeParts_ok _ hids
  unfold decode
  rw [hp]
  have hbytesEq : bytesOf t.vocab (encode_ordinary t split text)
      = utf8Encode text := by
    unfold encode_ordinary
    rw [bytesOf_flatMap]
    have hper : ∀ chunk ∈ split text,
        bytesOf t.vocab (_encode_chunk t.merges (utf8Encode chunk))
          = utf8Encode chunk := by
      intro chunk hc
      have hbytes : ∀ y ∈ utf8Encode chunk, (alGet t.vocab y).isSome = true := by
        intro y hy
        rw [hok.1 y (utf8Encode_lt_256 hy)]
        rfl
      rw [(encode_chunk_spec hok (utf8Encode chunk) hbytes).2]
      exact bytesOf_bytes hok.1 (fun x hx => utf8Encode_lt_256 hx)
    rw [flatMap_congr_on hper, ← utf8Encode_flatten, hsplit]
  show Except.ok (utf8DecodeToChars parts.flatten) = Except.ok text
  rw [hf, hbytesEq, utf8DecodeToChars_utf8Encode]

/-- C1: for every text and every tokenizer state that is either untrained
(256-byte-only) or produced by `train`, `decode (encode_ordinary text)`
returns the text.  The external regex splitter enters as the `split`
parameter with the §4.3 lossless-chunking contract as a hypothesis;
`encode_ordinary` ignores special tokens entirely, so the theorem holds for
every text, in particular those without special-token substrings. -/
theorem c1_round_trip (split : List Char → List (List Char)) (st : RegexTok)
    (text : List Char)
    (hsplit : (split text).flatten = text)
    (hstate : (∃ p, st = freshTok p) ∨
      (∃ t0 split0 corpus n, train t0 split0 corpus n = Except.ok st)) :
    decode st (encode_ordinary st split text) = Except.ok text := by
  have hok : MergesVocabOK st.merges st.vocab := by
    rcases hstate with ⟨p, hp⟩ | ⟨t0, split0, corpus, n, htrain⟩
    · subst hp
      constructor
      · intro b hb
        exact alGet_byteVocab hb
      · intro a b j hj
        simp [freshTok, alGet] at hj
    · exact train_ok_MergesVocabOK htrain
  exact decode_encode_ordinary hok split text hsplit

/-- Witness for C1: the untrained tokenizer with a one-chunk splitter on the
text `"ab"`. -/
theorem c1_round_trip_witness :
    ((fun (t : List Char) => [t]) (("ab").toList)).flatten = ("ab").toList ∧
    ((∃ p, freshTok ("p") = freshTok p) ∨
      (∃ t0 split0 corpus n, train t0 split0 corpus n = Except.ok (freshTok ("p")))) ∧
    decode (freshTok ("p"))
        (encode_ordinary (freshTok ("p")) (fun t => [t]) (("ab").toList))
      = Except.ok (("ab").toList) := by
  refine ⟨rfl, Or.inl ⟨("p"), rfl⟩, ?_⟩
  exact c1_round_trip (fun t => [t]) (freshTok ("p")) (("ab").toList) rfl
    (Or.inl ⟨("p"), rfl⟩)

/-! ## `RegexTokenizer.encode` (special-token aware) -/

/-- Python `token in text` substring containment on strings. -/
def occursIn (s : List Char) : List Char → Bool
  | [] => s.isEmpty
  | c :: r => s.isPrefixOf (c :: r) || occursIn s r

/-- Leftmost match of any special-token string: `re.split` over the
alternation of escaped (hence literal) special strings scans left to right
and, at each position, tries the alternatives in dict order.  Returns
`(pre, match, rest)`.  Empty special strings are skipped (CPython would treat
an empty alternative differently; registering an empty special token is a
degenerate case outside the modelled behaviour). -/
def findEarliest (specials : List (List Char)) :
    List Char → Option (List Char × List Char × List Char)
  | [] => none
  | c :: cs =>
    match specials.find? (fun s => !s.isEmpty && s.isPrefixOf (c :: cs)) with
    | some s => some ([], s, (c :: cs).drop s.length)
    | none =>
      match findEarliest specials cs with
      | some (pre, m, rest) => some (c :: pre, m, rest)
      | none => none

theorem findEarliest_rest_lt (specials : List (List Char)) :
    ∀ (t pre m rest : List Char),
      findEarliest specials t = some (pre, m, rest) → rest.length < t.length := by
  intro t
  induction t with
  | nil =>
      intro pre m rest h
      simp [findEarliest] at h
  | cons c cs ih =>
      intro pre m rest h
      unfold findEarliest at h
      cases hf : specials.find? (fun s => !s.isEmpty && s.isPrefixOf (c :: cs)) with
      | some s =>
          rw [hf] at h
          have hs := List.find?_some hf
          have hslen : 1 ≤ s.length := by
            cases s with
            | nil => simp at hs
            | cons a b => simp
          simp only [Option.some.injEq, Prod.mk.injEq] at h
          obtain ⟨h1, h2, h3⟩ := h
          rw [← h3, List.length_drop]
          simp only [List.length_cons]
          omega
      | none =>
          rw [hf] at h
          cases hr : findEarliest specials cs with
          | some pmr =>
              obtain ⟨pre2, m2, rest2⟩ := pmr
              rw [hr] at h
              simp only [Option.some.injEq, Prod.mk.injEq] at h
              obtain ⟨h1, h2, h3⟩ := h
              have hlt := ih pre2 m2 rest2 hr
              rw [← h3]
              simp only [List.length_cons]
              omega
          | none =>
              rw [hr] at h
              cases h

/-- `re.split("(" + "|".join(escaped specials) + ")", text)`: the interleaved
list of non-matching segments and captured separators. -/
def reSplitSpecial (specials : List (List Char)) (t : List Char) :
    List (List Char) :=
  match hf : findEarliest specials t with
  | none => [t]
  | some (pre, m, rest) => pre :: m :: reSplitSpecial specials rest
termination_by t.length
decreasing_by
  exact findEarliest_rest_lt specials t pre m rest hf

/-- The `allowed_special` argument of `encode`:
`"all" | "none" | "none_raise"` or a custom set of special-token strings. -/
inductive AllowedSpecial : Type
  | all : AllowedSpecial
  | nothing : AllowedSpecial
  | noneRaise : AllowedSpecial
  | subset (allowed : List (List Char)) : AllowedSpecial

/-- Resolution of the policy into the `special` dict used by `encode`.
`none_raise` asserts that no registered special token occurs in the text; a
custom set keeps the registered tokens belonging to it. -/
def resolveSpecial (t : RegexTok) (text : List Char)
    (allowed_special : AllowedSpecial) :
    Except String (List (List Char × Nat)) :=
  match allowed_special with
  | AllowedSpecial.all => Except.ok t.special_tokens
  | AllowedSpecial.nothing => Except.ok []
  | AllowedSpecial.noneRaise =>
      if t.special_tokens.all (fun kv => !(occursIn kv.1 text)) then Except.ok []
      else Except.error ("AssertionError: special token found in text")
  | AllowedSpecial.subset allowed =>
      Except.ok (t.special_tokens.filter (fun kv => decide (kv.1 ∈ allowed)))

/-- `RegexTokenizer.encode`: resolve the policy; an empty `special` dict
short-circuits to `encode_ordinary`; otherwise split the text on exact
occurrences of the recognized special strings and encode each part — a
special part contributes its reserved id, an ordinary part is
ordinary-encoded. -/
def encode (t : RegexTok) (split : List Char → List (List Char))
    (text : List Char) (allowed_special : AllowedSpecial) :
    Except String (List Nat) :=
  match resolveSpecial t text allowed_special with
  | Except.error e => Except.error e
  | Except.ok special =>
    if special.isEmpty then Except.ok (encode_ordinary t split text)
    else
      Except.ok ((reSplitSpecial (special.map Prod.fst) text).flatMap
        (fun part =>
          match alGet special part with
          | some idv => [idv]
          | none => encode_ordinary t split part))

/-- Reduction of `encode` once the policy has been resolved successfully. -/
theorem encode_ok_resolve {t : RegexTok} {split : List Char → List (List Char)}
    {text : List Char} {pol : AllowedSpecial} {special : List (List Char × Nat)}
    (hres : resolveSpecial t text pol = Except.ok special) :
    encode t split text pol =
      (if special.isEmpty then Except.ok (encode_ordinary t split text)
       else Except.ok ((reSplitSpecial (special.map Prod.fst) text).flatMap
        (fun part => match alGet special part with
          | some idv => [idv]
          | none => encode_ordinary t split part))) := by
  unfold encode
  rw [hres]

/-- C4: with special token `"<END>" -> 100256` registered, for every merge
table, vocabulary and splitter, `encode("hi<END>bye", all)` yields
`encode_ordinary("hi") ++ [100256] ++ encode_ordinary("bye")`, and the same
call under the reject policy (`"none_raise"`) fails with the assertion
error. -/
theorem c4_special_exactness (t : RegexTok)
    (split : List Char → List (List Char))
    (hsp : t.special_tokens = [(("<END>").toList, 100256)]) :
    encode t split (("hi<END>bye").toList) AllowedSpecial.all
      = Except.ok (encode_ordinary t split (("hi").toList)
          ++ 100256 :: encode_ordinary t split (("bye").toList)) ∧
    encode t split (("hi<END>bye").toList) AllowedSpecial.noneRaise
      = Except.error ("AssertionError: special token found in text") := by
  have e2 : reSplitSpecial [("<END>").toList] (("bye").toList)
      = [("bye").toList] := by
    rw [reSplitSpecial.eq_def]
    rfl
  have e1 : reSplitSpecial [("<END>").toList] (("hi<END>bye").toList)
      = [("hi").toList, ("<END>").toList, ("bye").toList] := by
    rw [reSplitSpecial.eq_def]
    show ("hi").toList :: ("<END>").toList ::
        reSplitSpecial [("<END>").toList] (("bye").toList) = _
    rw [e2]
  constructor
  · have hres : resolveSpecial t (("hi<END>bye").toList) AllowedSpecial.all
        = Except.ok [(("<END>").toList, 100256)] := by
      show Except.ok t.special_tokens = _
      rw [hsp]
    rw [encode_ok_resolve hres, if_neg (by simp)]
    simp only [List.map_cons, List.map_nil]
    rw [e1]
    have ha : alGet [(("<END>").toList, 100256)] (("hi").toList) = none := rfl
    have hb : alGet [(("<END>").toList, 100256)] (("<END>").toList)
        = some 100256 := rfl
    have hc : alGet [(("<END>").toList, 100256)] (("bye").toList) = none := rfl
    simp only [List.flatMap_cons, List.flatMap_nil, ha, hb, hc]
    simp
  · unfold encode resolveSpecial
    rw [hsp]
    rfl

/-- Witness for C4 at a concrete state (the registered-special tokenizer with
a one-chunk splitter). -/
theorem c4_special_exactness_witness :
    tokWithEnd.special_tokens = [(("<END>").toList, 100256)] ∧
    encode tokWithEnd (fun t => [t]) (("hi<END>bye").toList) AllowedSpecial.all
      = Except.ok (encode_ordinary tokWithEnd (fun t => [t]) (("hi").toList)
          ++ 100256 :: encode_ordinary tokWithEnd (fun t => [t]) (("bye").toList)) :=
  ⟨rfl, (c4_special_exactness tokWithEnd (fun t => [t]) rfl).1⟩

theorem alGet_some_mem {α β : Type} [DecidableEq α] {l : List (α × β)} {k : α}
    {v : β} (h : alGet l k = some v) : (k, v) ∈ l := by
  induction l with
  | nil => simp [alGet] at h
  | cons kv rest ih =>
      obtain ⟨k0, v0⟩ := kv
      by_cases hk : k = k0
      · subst hk
        simp [alGet] at h
        rw [← h]
        exact List.mem_cons_self _ _
      · simp [alGet, hk] at h
        exact List.mem_cons_of_mem _ (ih h)

/-- Every id produced by `encode_ordinary` has a vocabulary entry, whenever
merges and vocabulary are consistent. -/
theorem encode_ordinary_mem_vocab {t : RegexTok}
    (hok : MergesVocabOK t.merges t.vocab)
    (split : List Char → List (List Char)) (text : List Char) :
    ∀ x ∈ encode_ordinary t split text, (alGet t.vocab x).isSome = true := by
  intro x hx
  unfold encode_ordinary at hx
  obtain ⟨chunk, hc, hxc⟩ := List.mem_flatMap.mp hx
  have hbytes : ∀ y ∈ utf8Encode chunk, (alGet t.vocab y).isSome = true := by
    intro y hy
    rw [hok.1 y (utf8Encode_lt_256 hy)]
    rfl
  exact (encode_chunk_spec hok (utf8Encode chunk) hbytes).1 x hxc

/-- The tokenizer of C10's mixed-set instance: two special tokens registered,
of which only `"<A>"` will be allowed. -/
def tokMixed : RegexTok :=
  register_special_tokens (freshTok ("p"))
    [(("<A>").toList, 100000), (("<END>").toList, 100256)]

/-- C10: under an explicit allowed-special set, a registered special token
`s -> i` outside the set is neither rejected nor emitted as its reserved id,
and its characters go through the ordinary byte-level merge path.  In full:
(1) the subset policy never raises, for every set; (2) `s` is not among the
keys of the filtered `special` dict, i.e. it is not part of the `re.split`
alternation, so its occurrences stay inside the plain segments, which are
`encode_ordinary`-encoded; (3) the id `i` never appears in the output — the
special branch only emits ids of tokens in the allowed set (all distinct from
`i`), and the ordinary branch only emits vocabulary ids, which `i` is not —
including when the filtered dict is non-empty; and (4) concretely, on the
mixed-set run (`"<A>"` allowed, `"<END>"` not) over `"x<END>y<A>z"` the
non-empty split path fires and the `"<END>"` occurrence is ordinary-encoded
inside the plain segment `"x<END>y"` while `"<A>"` yields its id.  The
hypotheses state that `(s, i)` is registered, `s` is outside the set, merges
and vocabulary are consistent, and `i` is a genuine special id: absent from
the vocabulary and distinct from the allowed tokens' ids. -/
theorem c10_subset_explicit (t : RegexTok)
    (split : List Char → List (List Char)) (text s : List Char)
    (A : List (List Char)) (i : Nat)
    (hreg : (s, i) ∈ t.special_tokens)
    (hnotA : s ∉ A)
    (hok : MergesVocabOK t.merges t.vocab)
    (hvoc : alGet t.vocab i = none)
    (hinj : ∀ kv ∈ t.special_tokens, kv.1 ∈ A → kv.2 ≠ i) :
    (∀ A2 : List (List Char), ∃ ids,
        encode t split text (AllowedSpecial.subset A2) = Except.ok ids) ∧
    (s ∉ (t.special_tokens.filter (fun kv => decide (kv.1 ∈ A))).map Prod.fst) ∧
    (∀ ids, encode t split text (AllowedSpecial.subset A) = Except.ok ids →
      i ∉ ids) ∧
    (encode tokMixed (fun u => [u]) (("x<END>y<A>z").toList)
        (AllowedSpecial.subset [("<A>").toList])
      = Except.ok (encode_ordinary tokMixed (fun u => [u]) (("x<END>y").toList)
          ++ 100000 :: encode_ordinary tokMixed (fun u => [u]) (("z").toList))) := by
  refine ⟨?_, ?_, ?_, ?_⟩
  · intro A2
    have hres : resolveSpecial t text (AllowedSpecial.subset A2)
        = Except.ok (t.special_tokens.filter (fun kv => decide (kv.1 ∈ A2))) :=
      rfl
    rw [encode_ok_resolve hres]
    by_cases he :
        (t.special_tokens.filter (fun kv => decide (kv.1 ∈ A2))).isEmpty
    · exact ⟨_, by rw [if_pos he]⟩
    · exact ⟨_, by rw [if_neg he]⟩
  · intro hmem
    obtain ⟨kv, hkv, hfst⟩ := List.mem_map.mp hmem
    obtain ⟨hmemT, hdec⟩ := List.mem_filter.mp hkv
    exact hnotA (hfst ▸ of_decide_eq_true hdec)
  · intro ids hids hmem
    have hres : resolveSpecial t text (AllowedSpecial.subset A)
        = Except.ok (t.special_tokens.filter (fun kv => decide (kv.1 ∈ A))) :=
      rfl
    rw [encode_ok_resolve hres] at hids
    by_cases he :
        (t.special_tokens.filter (fun kv => decide (kv.1 ∈ A))).isEmpty
    · rw [if_pos he] at hids
      injection hids with hids
      subst hids
      have hsome := encode_ordinary_mem_vocab hok split text i hmem
      rw [hvoc] at hsome
      simp at hsome
    · rw [if_neg he] at hids
      injection hids with hids
      subst hids
      obtain ⟨part, hpart, hipart⟩ := List.mem_flatMap.mp hmem
      cases halg : alGet (t.special_tokens.filter (fun kv => decide (kv.1 ∈ A))) part with
      | some idv =>
          rw [halg] at hipart
          simp at hipart
          obtain ⟨hmemT, hdec⟩ := List.mem_filter.mp (alGet_some_mem halg)
          exact hinj (part, idv) hmemT (of_decide_eq_true hdec) hipart.symm
      | none =>
          rw [halg] at hipart
          have hsome := encode_ordinary_mem_vocab hok split part i hipart
          rw [hvoc] at hsome
          simp at hsome
  · have e2 : reSplitSpecial [("<A>").toList] (("z").toList) = [("z").toList] := by
      rw [reSplitSpecial.eq_def]
      rfl
    have e1 : reSplitSpecial [("<A>").toList] (("x<END>y<A>z").toList)
        = [("x<END>y").toList, ("<A>").toList, ("z").toList] := by
      rw [reSplitSpecial.eq_def]
      show ("x<END>y").toList :: ("<A>").toList ::
          reSplitSpecial [("<A>").toList] (("z").toList) = _
      rw [e2]
    have hres2 : resolveSpecial tokMixed (("x<END>y<A>z").toList)
        (AllowedSpecial.subset [("<A>").toList])
        = Except.ok [(("<A>").toList, 100000)] := rfl
    rw [encode_ok_resolve hres2, if_neg (by simp)]
    simp only [List.map_cons, List.map_nil]
    rw [e1]
    have ha : alGet [(("<A>").toList, 100000)] (("x<END>y").toList) = none := rfl
    have hb : alGet [(("<A>").toList, 100000)] (("<A>").toList)
        = some 100000 := rfl
    have hcz : alGet [(("<A>").toList, 100000)] (("z").toList) = none := rfl
    simp only [List.flatMap_cons, List.flatMap_nil, ha, hb, hcz]
    simp

/-- Witness for C10: the mixed-set instance itself — `"<END>" -> 100256`
registered but not allowed while `"<A>"` is allowed (non-empty filtered
dict), the text containing `"<END>"` — with every hypothesis discharged
there. -/
theorem c10_subset_explicit_witness :
    ((("<END>").toList, 100256) ∈ tokMixed.special_tokens) ∧
    (("<END>").toList ∉ [("<A>").toList]) ∧
    (∀ ids, encode tokMixed (fun u => [u]) (("x<END>y<A>z").toList)
        (AllowedSpecial.subset [("<A>").toList]) = Except.ok ids →
      100256 ∉ ids) ∧
    (encode tokMixed (fun u => [u]) (("x<END>y<A>z").toList)
        (AllowedSpecial.subset [("<A>").toList])
      = Except.ok (encode_ordinary tokMixed (fun u => [u]) (("x<END>y").toList)
          ++ 100000 :: encode_ordinary tokMixed (fun u => [u]) (("z").toList))) := by
  have happ := c10_subset_explicit tokMixed (fun u => [u])
    (("x<END>y<A>z").toList) (("<END>").toList) [("<A>").toList] 100256
    (by decide) (by decide)
    ⟨fun b hb => alGet_byteVocab hb, fun a b j hj => by simp [alGet] at hj⟩
    (alGet_byteVocab_none (by omega)) (by decide)
  exact ⟨by decide, by decide, happ.2.2.1, happ.2.2.2⟩

/-! ## `Tokenizer.save` / `Tokenizer.load` (C2) -/

/-- `Tokenizer._build_vocab`: the byte table, then the merge products in
insertion order (`vocab[p0] + vocab[p1]` raises `KeyError` when a parent is
absent), then the special tokens (UTF-8 encodings of their strings). -/
def build_vocab (merges : List ((Nat × Nat) × Nat))
    (special_tokens : List (List Char × Nat)) :
    Except String (List (Nat × List Nat)) :=
  match merges.foldlM (fun v e =>
      match alGet v e.1.1, alGet v e.1.2 with
      | some va, some vb => Except.ok (alSet v e.2 (va ++ vb))
      | _, _ => Except.error ("KeyError")) byteVocab with
  | Except.ok v1 =>
      Except.ok (special_tokens.foldl (fun v e => alSet v e.2 (utf8Encode e.1)) v1)
  | Except.error e => Except.error e

/-- Content of the `.model` file written by `Tokenizer.save`, one entry per
line: version tag, pattern, special-token count, one line per special token
(`"<string> <id>"`), then one line per merge pair in dict order. -/
def saveModelLines (t : RegexTok) : List String :=
  ("bpe v1") :: t.pattern :: (toString t.special_tokens.length) ::
    (t.special_tokens.map (fun kv => String.mk kv.1 ++ (" ") ++ toString kv.2) ++
      t.merges.map (fun e => toString e.1.1 ++ (" ") ++ toString e.1.2))

/-- The `.vocab` dump loop of `save`: an entry whose id is a merge product is
rendered via `render_token` (external `unicodedata`-based prettifying — not
modelled, since that branch succeeds and the file is write-only); a leaf
entry — any of the 256 base-byte ids — executes `f.wirte(...)`, a
misspelling of `write`, raising `AttributeError`. -/
def saveVocabLoop (invMerges : List (Nat × (Nat × Nat))) :
    List (Nat × List Nat) → Except String Unit
  | [] => Except.ok ()
  | (idx, _) :: rest =>
      if (alGet invMerges idx).isSome then saveVocabLoop invMerges rest
      else Except.error
        ("AttributeError: _io.TextIOWrapper object has no attribute wirte")

/-- `Tokenizer.save`: the `.model` file is fully written and closed (first
component) before the `.vocab` dump (second component) runs. -/
def save (t : RegexTok) : List String × Except String Unit :=
  (saveModelLines t,
    saveVocabLoop (t.merges.map (fun e => (e.2, e.1))) t.vocab)

/-- Helper for Python `str.split()`: accumulate the current word (reversed)
while scanning. -/
def pyWordsAux (cur : List Char) : List Char → List (List Char)
  | [] => if cur.isEmpty then [] else [cur.reverse]
  | c :: rest =>
      if c.isWhitespace then
        if cur.isEmpty then pyWordsAux [] rest
        else cur.reverse :: pyWordsAux [] rest
      else pyWordsAux (c :: cur) rest

/-- Python `str.split()`: split on whitespace runs, dropping empty pieces. -/
def pySplit (s : String) : List (List Char) := pyWordsAux [] s.toList

/-- Python `str.strip()`. -/
def pyStrip (s : List Char) : List Char :=
  ((s.dropWhile Char.isWhitespace).reverse.dropWhile Char.isWhitespace).reverse

/-- Python `int(s)` for the plain nonnegative decimal literals that appear in
model files. -/
def pyParseNat (s : List Char) : Option Nat :=
  if s.isEmpty || !(s.all Char.isDigit) then none
  else some (s.foldl (fun n c => n * 10 + (c.toNat - 48)) 0)

/-- The special-token loop of `load`: each of the `num_special` lines must
unpack into exactly two whitespace-separated fields and the id must parse as
an int; the assignment target `special_token[special]` then names an
undefined variable (the local is `special_tokens`), so every successfully
parsed special line raises `NameError`.  (Ids in model files are nonnegative
decimal literals, which is what the int parse models.) -/
def loadSpecialLines : Nat → List String → Except String (List String)
  | 0, rest => Except.ok rest
  | _ + 1, [] => Except.error ("ValueError: not enough values to unpack")
  | _ + 1, line :: _ =>
      match pySplit line with
      | [_, sid] =>
          match pyParseNat sid with
          | some _ => Except.error ("NameError: name special_token is not defined")
          | none => Except.error ("ValueError: invalid literal for int")
      | _ => Except.error ("ValueError: unpack")

/-- The merge loop of `load`: every remaining line holds exactly two ints;
merge ids are assigned sequentially from 256 in file order. -/
def loadMergeLines : Nat → List String → List ((Nat × Nat) × Nat) →
    Except String (List ((Nat × Nat) × Nat))
  | _, [], acc => Except.ok acc
  | idx, line :: rest, acc =>
      match pySplit line with
      | [sa, sb] =>
          match pyParseNat sa, pyParseNat sb with
          | some a, some b => loadMergeLines (idx + 1) rest (alSet acc (a, b) idx)
          | _, _ => Except.error ("ValueError: invalid literal for int")
      | _ => Except.error ("ValueError: unpack")

/-- `Tokenizer.load` on the model file's lines: assert the version tag, read
the (stripped) pattern, read `num_special`, run the special loop, read the
merges, then `_build_vocab`.  `compiled_pattern` and
`inverse_special_tokens` are NOT refreshed (the method lives on the base
class). -/
def load (t : RegexTok) (lines : List String) : Except String RegexTok :=
  match lines with
  | [] => Except.error ("AssertionError: version tag")
  | version :: rest =>
    if pyStrip version.toList ≠ (("bpe v1").toList) then
      Except.error ("AssertionError: version tag")
    else
      match rest with
      | [] => Except.error ("ValueError: invalid literal for int")
      | pat :: rest2 =>
        match rest2 with
        | [] => Except.error ("ValueError: invalid literal for int")
        | ns :: rest3 =>
          match pyParseNat (pyStrip ns.toList) with
          | none => Except.error ("ValueError: invalid literal for int")
          | some num_special =>
            match loadSpecialLines num_special rest3 with
            | Except.error e => Except.error e
            | Except.ok rest4 =>
              match loadMergeLines 256 rest4 [] with
              | Except.error e => Except.error e
              | Except.ok merges =>
                match build_vocab merges [] with
                | Except.error e => Except.error e
                | Except.ok v =>
                    Except.ok { t with
                      pattern := String.mk (pyStrip pat.toList),
                      merges := merges,
                      special_tokens := [],
                      vocab := v }

/-- C2 (code bug): the save/load round trip crashes.  `save` raises
`AttributeError` in the vocab dump — its leaf branch calls the misspelled
`f.wirte`, and the very first vocabulary entry (byte id 0) is a leaf — though
the `.model` file has been written by then.  And loading that `.model`
content raises `NameError` because the special-token loop assigns into the
misspelled `special_token` whenever the file records at least one special
token.  Evaluated on the fresh tokenizer with `"<END>" -> 100256`
registered. -/
theorem c2_save_load_crashes :
    (save tokWithEnd).2 =
      Except.error
        ("AttributeError: _io.TextIOWrapper object has no attribute wirte") ∧
    (save tokWithEnd).1 = [("bpe v1"), ("p"), ("1"), ("<END> 100256")] ∧
    load (freshTok ("q")) (save tokWithEnd).1 =
      Except.error ("NameError: name special_token is not defined") := by
  refine ⟨rfl, rfl, rfl⟩

/-! ## The default split pattern (C6) -/

/-- `GPT4_SPLIT_PATTERN` exactly as in `regex.py` (apostrophe and braces
written as `\x27`/`\x7b`/`\x7d` escapes): note the fragment `\s+(?1\S)` —
the upstream tiktoken pattern cited by the source's own comment has the
lookahead `\s+(?!\S)` there — and the stray trailing space after the final
`\s+`. -/
def GPT4_SPLIT_PATTERN : String :=
  "\x27(?i:[sdmt]|ll|ve|re)|[^\\r\\n\\p\x7bL\x7d\\p\x7bN\x7d]?+\\p\x7bL\x7d+|\\p\x7bN\x7d\x7b1,3\x7d| ?[^\\s\\p\x7bL\x7d\\p\x7bN\x7d]++[\\r\\n]*|\\s*[\\r\\n]|\\s+(?1\\S)|\\s+ "

/-- The pattern the source's comment points at (tiktoken's GPT-4 split
pattern): identical except for the lookahead `(?!\S)` in place of `(?1\S)`
and no trailing space. -/
def GPT4_SPLIT_PATTERN_INTENDED : String :=
  "\x27(?i:[sdmt]|ll|ve|re)|[^\\r\\n\\p\x7bL\x7d\\p\x7bN\x7d]?+\\p\x7bL\x7d+|\\p\x7bN\x7d\x7b1,3\x7d| ?[^\\s\\p\x7bL\x7d\\p\x7bN\x7d]++[\\r\\n]*|\\s*[\\r\\n]|\\s+(?!\\S)|\\s+"

/-- Count of capturing groups: occurrences of `(` not followed by `?`, with
escapes skipped (adequate for patterns, like these, with no parenthesis
inside a character class). -/
def countCapturing : List Char → Nat
  | [] => 0
  | '\\' :: _ :: rest => countCapturing rest
  | '(' :: '?' :: rest => countCapturing rest
  | '(' :: rest => 1 + countCapturing rest
  | _ :: rest => countCapturing rest

mutual

/-- Detects a malformed numeric group call: a `(?` followed by a digit where
the digit run is not immediately closed by `)`.  The `regex` module's parser
accepts only `(?N)` there and raises `error: missing )` on anything else —
as it does on this pattern's `(?1\S)`. -/
def hasBadGroupCall : List Char → Bool
  | [] => false
  | '\\' :: _ :: rest => hasBadGroupCall rest
  | '(' :: '?' :: c :: rest =>
      if c.isDigit then badCallTail rest else hasBadGroupCall (c :: rest)
  | _ :: rest => hasBadGroupCall rest

/-- After `(?` and one digit: consume further digits; a `)` closes the call
(scanning continues), anything else is the malformed case. -/
def badCallTail : List Char → Bool
  | [] => true
  | c :: rest =>
      if c.isDigit then badCallTail rest
      else if c = ')' then hasBadGroupCall rest
      else true

end

/-- C6 (code bug): the default split pattern cannot split anything.  It
contains the malformed numeric group call `(?1\S)` — a typo for the
lookahead `(?!\S)` of the upstream pattern that the code's comment cites —
while having zero capturing groups (so even `(?1)` would be an invalid group
reference); `regex.compile` therefore fails and `RegexTokenizer.__init__`
raises before any text can be split.  The intended pattern passes the same
check, and the two differ (also by the stray trailing space). -/
theorem c6_default_pattern_malformed :
    hasBadGroupCall (GPT4_SPLIT_PATTERN.toList) = true ∧
    countCapturing (GPT4_SPLIT_PATTERN.toList) = 0 ∧
    hasBadGroupCall (GPT4_SPLIT_PATTERN_INTENDED.toList) = false ∧
    countCapturing (GPT4_SPLIT_PATTERN_INTENDED.toList) = 0 ∧
    GPT4_SPLIT_PATTERN ≠ GPT4_SPLIT_PATTERN_INTENDED := by
  refine ⟨by decide, by decide, by decide, by decide, by decide⟩

end BPE
